import Mathlib

/-!
Shallow embedding of the shrinking utilities of
`hypothesis/internal/conjecture/shrinking/common.py` (the `find_integer`
boundary search and the generic `Shrinker` driver), together with a model of
the conjecture-engine scenario exercised by `test_lot_of_dead_nodes`.

Loops of the source that are not structurally bounded are embedded with an
explicit fuel parameter: a result of `none` means the source loop has not
terminated within `fuel` iterations, and termination of the source
corresponds to `∃ fuel, … = some …`.

Functions whose call behaviour the specification constrains are instrumented:
next to their result they return the exact sequence of arguments at which the
supplied black-box function was evaluated, in evaluation order.
-/

set_option maxHeartbeats 1600000

/-- Linear phase of `find_integer`: the loop `for i in range(1, 5): if not
f(i): return i - 1`, evaluated over an explicit list of probe points.  Returns
the early-return value (if any) and the list of arguments at which `f` was
evaluated. -/
def linearScanGo (f : Nat → Bool) : List Nat → Option Nat × List Nat
  | [] => (none, [])
  | i :: rest =>
    if f i then
      let r := linearScanGo f rest
      (r.1, i :: r.2)
    else (some (i - 1), [i])

/-- Linear phase of `find_integer` over the probe points `1, 2, 3, 4`. -/
def linearScan (f : Nat → Bool) : Option Nat × List Nat :=
  linearScanGo f [1, 2, 3, 4]

/-- Exponential phase of `find_integer`: the loop `while f(hi): lo = hi;
hi *= 2`, with fuel.  On success returns the final `lo`, `hi` and the probed
arguments. -/
def expProbe (f : Nat → Bool) (lo hi : Nat) : Nat → Option (Nat × Nat × List Nat)
  | 0 => none
  | fuel + 1 =>
    if f hi then
      match expProbe f hi (hi * 2) fuel with
      | none => none
      | some (lo2, hi2, tr) => some (lo2, hi2, hi :: tr)
    else some (lo, hi, [hi])

/-- Binary-search phase of `find_integer`: the loop `while lo + 1 < hi:
mid = (lo + hi) // 2; if f(mid): lo = mid else: hi = mid`, returning the final
`lo` and the probed arguments. -/
def bsearch (f : Nat → Bool) (lo hi : Nat) : Nat × List Nat :=
  if lo + 1 < hi then
    if f ((lo + hi) / 2) then
      ((bsearch f ((lo + hi) / 2) hi).1, (lo + hi) / 2 :: (bsearch f ((lo + hi) / 2) hi).2)
    else
      ((bsearch f lo ((lo + hi) / 2)).1, (lo + hi) / 2 :: (bsearch f lo ((lo + hi) / 2)).2)
  else (lo, [])
termination_by hi - lo
decreasing_by
  all_goals omega

/-- The function `find_integer` of `shrinking/common.py`, instrumented with
the list of arguments at which `f` was evaluated.  The exponential phase
carries fuel; `none` means that phase of the source would not have returned
within `fuel` iterations. -/
def find_integer (f : Nat → Bool) (fuel : Nat) : Option (Nat × List Nat) :=
  match linearScan f with
  | (some n, tr) => some (n, tr)
  | (none, tr) =>
    match expProbe f 4 5 fuel with
    | none => none
    | some (lo, hi, tr2) =>
      let r := bsearch f lo hi
      some (r.1, tr ++ tr2 ++ r.2)

lemma expProbe_succ (f : Nat → Bool) (lo hi fuel : Nat) :
    expProbe f lo hi (fuel + 1) =
      if f hi then
        match expProbe f hi (hi * 2) fuel with
        | none => none
        | some (lo2, hi2, tr) => some (lo2, hi2, hi :: tr)
      else some (lo, hi, [hi]) := rfl

lemma find_integer_eq_some (f : Nat → Bool) (fuel n : Nat) (tr : List Nat)
    (h : linearScan f = (some n, tr)) : find_integer f fuel = some (n, tr) := by
  unfold find_integer
  rw [h]

lemma find_integer_eq_exp (f : Nat → Bool) (fuel : Nat) (tr : List Nat) (lo hi : Nat)
    (tr2 : List Nat) (h1 : linearScan f = (none, tr))
    (h2 : expProbe f 4 5 fuel = some (lo, hi, tr2)) :
    find_integer f fuel = some ((bsearch f lo hi).1, tr ++ tr2 ++ (bsearch f lo hi).2) := by
  unfold find_integer
  rw [h1, h2]

/-- The list `[i, i+1, …, i+t-1]` of `t` consecutive naturals starting at
`i`. -/
def rangeFrom : Nat → Nat → List Nat
  | _, 0 => []
  | i, t + 1 => i :: rangeFrom (i + 1) t

lemma mem_rangeFrom : ∀ t i x, x ∈ rangeFrom i t → i ≤ x ∧ x < i + t := by
  intro t
  induction t with
  | zero => intro i x h; simp [rangeFrom] at h
  | succ t ih =>
    intro i x h
    simp only [rangeFrom, List.mem_cons] at h
    rcases h with h | h
    · omega
    · have := ih (i + 1) x h
      omega

lemma linearScanGo_sublist (f : Nat → Bool) :
    ∀ l : List Nat, (linearScanGo f l).2.Sublist l := by
  intro l
  induction l with
  | nil => simp [linearScanGo]
  | cons i rest ih =>
    by_cases h : f i
    · simpa [linearScanGo, h] using List.Sublist.cons₂ i ih
    · simp [linearScanGo, h]

lemma linearScan_le_small (n : Nat) (h : n < 4) :
    linearScan (fun i => decide (i ≤ n)) = (some n, rangeFrom 1 (n + 1)) := by
  interval_cases n <;> rfl

lemma linearScan_le_large (n : Nat) (h : 4 ≤ n) :
    linearScan (fun i => decide (i ≤ n)) = (none, [1, 2, 3, 4]) := by
  simp [linearScan, linearScanGo, show (1 : Nat) ≤ n by omega,
    show (2 : Nat) ≤ n by omega, show (3 : Nat) ≤ n by omega,
    show (4 : Nat) ≤ n by omega]

lemma expProbe_le (n : Nat) : ∀ fuel lo hi, lo ≤ n → n < hi * 2 ^ fuel →
    ∃ lo2 hi2 tr, expProbe (fun i => decide (i ≤ n)) lo hi (fuel + 1) = some (lo2, hi2, tr) ∧
      lo2 ≤ n ∧ n < hi2 := by
  intro fuel
  induction fuel with
  | zero =>
    intro lo hi hlo hhi
    have hf : ¬ (hi ≤ n) := by simp at hhi; omega
    exact ⟨lo, hi, [hi], by simp [expProbe, hf], hlo, by omega⟩
  | succ fuel ih =>
    intro lo hi hlo hhi
    by_cases hcase : hi ≤ n
    · obtain ⟨lo2, hi2, tr, heq, h1, h2⟩ := ih hi (hi * 2) hcase (by
        rw [show hi * 2 * 2 ^ fuel = hi * 2 ^ (fuel + 1) from by ring]
        exact hhi)
      exact ⟨lo2, hi2, hi :: tr, by rw [expProbe_succ, heq]; simp [hcase], h1, h2⟩
    · exact ⟨lo, hi, [hi], by simp [expProbe, hcase], hlo, by omega⟩

lemma expProbe_trace (f : Nat → Bool) : ∀ fuel lo hi lo2 hi2 tr, 0 < hi → lo < hi →
    expProbe f lo hi fuel = some (lo2, hi2, tr) →
    tr.Nodup ∧ (∀ x ∈ tr, hi ≤ x ∧ (x ≤ lo2 ∨ x = hi2)) ∧ lo ≤ lo2 ∧ lo2 < hi2 := by
  intro fuel
  induction fuel with
  | zero => intro lo hi lo2 hi2 tr _ _ h; simp [expProbe] at h
  | succ fuel ih =>
    intro lo hi lo2 hi2 tr hpos hlt h
    simp only [expProbe] at h
    by_cases hf : f hi
    · rw [if_pos hf] at h
      rcases heq : expProbe f hi (hi * 2) fuel with _ | ⟨lo2', hi2', tr'⟩
      · rw [heq] at h; simp at h
      · rw [heq] at h
        simp only [Option.some.injEq, Prod.mk.injEq] at h
        obtain ⟨h1, h2, h3⟩ := h
        obtain ⟨ihn, ihm, ihlo, ihlh⟩ := ih hi (hi * 2) lo2' hi2' tr' (by omega) (by omega) heq
        subst h1; subst h2; subst h3
        refine ⟨?_, ?_, by omega, ihlh⟩
        · refine List.nodup_cons.mpr ⟨fun hmem => ?_, ihn⟩
          have := (ihm hi hmem).1
          omega
        · intro x hx
          rcases List.mem_cons.mp hx with rfl | hx
          · exact ⟨le_rfl, Or.inl (by omega)⟩
          · have := ihm x hx
            refine ⟨by omega, this.2⟩
    · rw [if_neg hf] at h
      simp only [Option.some.injEq, Prod.mk.injEq] at h
      obtain ⟨h1, h2, h3⟩ := h
      subst h1; subst h2; subst h3
      refine ⟨by simp, ?_, le_rfl, hlt⟩
      intro x hx
      simp only [List.mem_singleton] at hx
      subst hx
      exact ⟨le_rfl, Or.inr rfl⟩

lemma bsearch_le (n : Nat) : ∀ d lo hi, hi - lo ≤ d → lo ≤ n → n < hi →
    (bsearch (fun i => decide (i ≤ n)) lo hi).1 = n := by
  intro d
  induction d with
  | zero => intro lo hi h1 h2 h3; omega
  | succ d ih =>
    intro lo hi h1 h2 h3
    rw [bsearch.eq_def]
    by_cases hc : lo + 1 < hi
    · rw [if_pos hc]
      by_cases hm : (lo + hi) / 2 ≤ n
      · rw [if_pos (by simpa using hm)]
        exact ih ((lo + hi) / 2) hi (by omega) hm h3
      · rw [if_neg (by simpa using hm)]
        exact ih lo ((lo + hi) / 2) (by omega) h2 (by omega)
    · rw [if_neg hc]
      omega

lemma bsearch_trace (f : Nat → Bool) : ∀ d lo hi, hi - lo ≤ d →
    (bsearch f lo hi).2.Nodup ∧ ∀ x ∈ (bsearch f lo hi).2, lo < x ∧ x < hi := by
  intro d
  induction d with
  | zero =>
    intro lo hi h
    rw [bsearch.eq_def]
    rw [if_neg (by omega)]
    simp
  | succ d ih =>
    intro lo hi h
    rw [bsearch.eq_def]
    by_cases hc : lo + 1 < hi
    · rw [if_pos hc]
      by_cases hm : f ((lo + hi) / 2)
      · rw [if_pos hm]
        obtain ⟨hn, hb⟩ := ih ((lo + hi) / 2) hi (by omega)
        refine ⟨List.nodup_cons.mpr ⟨fun hmem => ?_, hn⟩, ?_⟩
        · have := hb _ hmem
          omega
        · intro x hx
          rcases List.mem_cons.mp hx with rfl | hx
          · omega
          · have := hb x hx
            omega
      · rw [if_neg hm]
        obtain ⟨hn, hb⟩ := ih lo ((lo + hi) / 2) (by omega)
        refine ⟨List.nodup_cons.mpr ⟨fun hmem => ?_, hn⟩, ?_⟩
        · have := hb _ hmem
          omega
        · intro x hx
          rcases List.mem_cons.mp hx with rfl | hx
          · omega
          · have := hb x hx
            omega
    · rw [if_neg hc]
      simp

/-- C1: for the monotone predicate `f(i) = i ≤ n`, `find_integer` returns
exactly `n`, and `f` is never evaluated at `0`.  The hypothesis
`n < 5 * 2 ^ fuel` gives the exponential phase enough fuel to cross the
boundary; the source loop needs exactly that many doublings. -/
theorem find_integer_exact_boundary (n fuel : Nat) (h : n < 5 * 2 ^ fuel) :
    ∃ tr, find_integer (fun i => decide (i ≤ n)) (fuel + 1) = some (n, tr) ∧ 0 ∉ tr := by
  by_cases hn : n < 4
  · refine ⟨rangeFrom 1 (n + 1), ?_, fun hmem => ?_⟩
    · exact find_integer_eq_some _ _ _ _ (linearScan_le_small n hn)
    · have := mem_rangeFrom _ _ _ hmem
      omega
  · obtain ⟨lo2, hi2, tr2, heq, hlo2, hhi2⟩ := expProbe_le n fuel 4 5 (by omega) h
    have hb := bsearch_le n (hi2 - lo2) lo2 hi2 le_rfl hlo2 hhi2
    have hexp := expProbe_trace _ (fuel + 1) 4 5 lo2 hi2 tr2 (by omega) (by omega) heq
    have hbt := bsearch_trace (fun i => decide (i ≤ n)) (hi2 - lo2) lo2 hi2 le_rfl
    refine ⟨[1, 2, 3, 4] ++ tr2 ++ (bsearch (fun i => decide (i ≤ n)) lo2 hi2).2, ?_, ?_⟩
    · rw [find_integer_eq_exp _ _ _ _ _ _ (linearScan_le_large n (by omega)) heq, hb]
    · intro hmem
      rcases List.mem_append.mp hmem with hmem | hmem
      · rcases List.mem_append.mp hmem with hmem | hmem
        · simp at hmem
        · have := (hexp.2.1 _ hmem).1
          omega
      · have := (hbt.2 _ hmem).1
        have hge : 4 ≤ lo2 := hexp.2.2.1
        omega

/-- C1 witness: at `n = 6` with fuel `2` the boundary `6` is returned and `0`
is never probed. -/
theorem find_integer_exact_boundary_app :
    ∃ tr, find_integer (fun i => decide (i ≤ 6)) 2 = some (6, tr) ∧ 0 ∉ tr :=
  find_integer_exact_boundary 6 1 (by norm_num)

/-- C6: in any completed run of `find_integer`, the predicate is evaluated at
most once per distinct argument: the recorded probe sequence has no
duplicates. -/
theorem find_integer_probes_nodup (f : Nat → Bool) (fuel n : Nat) (tr : List Nat)
    (h : find_integer f fuel = some (n, tr)) : tr.Nodup := by
  unfold find_integer at h
  rcases hl : linearScan f with ⟨o, ltr⟩
  rw [hl] at h
  have hsub : ltr.Sublist [1, 2, 3, 4] := by
    have h2 := linearScanGo_sublist f [1, 2, 3, 4]
    have h3 : linearScanGo f [1, 2, 3, 4] = (o, ltr) := hl
    rw [h3] at h2
    exact h2
  have hltr : ltr.Nodup := hsub.nodup (by decide)
  have hlb : ∀ x ∈ ltr, x < 5 := by
    intro x hx
    have := hsub.subset hx
    simp at this
    omega
  cases o with
  | some m =>
    simp only [Option.some.injEq, Prod.mk.injEq] at h
    rw [← h.2]
    exact hltr
  | none =>
    rcases he : expProbe f 4 5 fuel with _ | ⟨lo2, hi2, tr2⟩
    · rw [he] at h; simp at h
    · rw [he] at h
      simp only [Option.some.injEq, Prod.mk.injEq] at h
      obtain ⟨hexpn, hexpm, hexplo, hexplh⟩ :=
        expProbe_trace f fuel 4 5 lo2 hi2 tr2 (by omega) (by omega) he
      obtain ⟨hbn, hbm⟩ := bsearch_trace f (hi2 - lo2) lo2 hi2 le_rfl
      rw [← h.2]
      rw [List.append_assoc, List.nodup_append]
      refine ⟨hltr, ?_, ?_⟩
      · rw [List.nodup_append]
        refine ⟨hexpn, hbn, ?_⟩
        intro x hx hx2
        have h1 := hexpm x hx
        have h2 := hbm x hx2
        rcases h1.2 with h3 | h3 <;> omega
      · intro x hx hx2
        have h1 := hlb x hx
        rcases List.mem_append.mp hx2 with h2 | h2
        · have := (hexpm x h2).1
          omega
        · have := (hbm x h2).1
          omega

/-- C6 witness: the completed run at `f(i) = i ≤ 2` probes `[1, 2, 3]`,
which has no duplicates. -/
theorem find_integer_probes_nodup_app : List.Nodup [1, 2, 3] :=
  find_integer_probes_nodup (fun i => decide (i ≤ 2)) 1 2 [1, 2, 3] rfl

lemma expProbe_const_true (fuel : Nat) :
    ∀ lo hi, expProbe (fun _ => true) lo hi fuel = none := by
  induction fuel with
  | zero => intro lo hi; rfl
  | succ fuel ih => intro lo hi; simp [expProbe, ih]

/-- C5 counterexample: on the constantly-true predicate the exponential phase
of `find_integer` never exits, whatever the fuel: the source loops forever
rather than returning. -/
theorem find_integer_const_true_no_result :
    ¬ ∃ fuel n tr, find_integer (fun _ => true) fuel = some (n, tr) := by
  rintro ⟨fuel, n, tr, h⟩
  unfold find_integer at h
  rw [show linearScan (fun _ => true) = (none, [1, 2, 3, 4]) from rfl,
    expProbe_const_true fuel 4 5] at h
  simp at h

lemma expProbe_some_of_false (f : Nat → Bool) :
    ∀ k lo hi, f (hi * 2 ^ k) = false → ∃ r, expProbe f lo hi (k + 1) = some r := by
  intro k
  induction k with
  | zero =>
    intro lo hi hf
    have hf2 : f hi = false := by simpa using hf
    exact ⟨(lo, hi, [hi]), by simp [expProbe, hf2]⟩
  | succ k ih =>
    intro lo hi hf
    by_cases hfi : f hi
    · obtain ⟨⟨lo2, hi2, tr⟩, hr⟩ := ih hi (hi * 2) (by
        rw [show hi * 2 * 2 ^ k = hi * 2 ^ (k + 1) from by ring]
        exact hf)
      exact ⟨(lo2, hi2, hi :: tr), by rw [expProbe_succ, hr]; simp [hfi]⟩
    · exact ⟨(lo, hi, [hi]), by simp [expProbe, hfi]⟩

lemma linearScanGo_some_of_false (f : Nat → Bool) :
    ∀ l : List Nat, (∃ i ∈ l, f i = false) →
      ∃ m tr, linearScanGo f l = (some m, tr) := by
  intro l
  induction l with
  | nil =>
    rintro ⟨i, hi, _⟩
    simp at hi
  | cons j rest ih =>
    rintro ⟨i, hi, hfi⟩
    by_cases hj : f j
    · rcases List.mem_cons.mp hi with rfl | hi2
      · rw [hj] at hfi
        simp at hfi
      · obtain ⟨m, tr, hm⟩ := ih ⟨i, hi2, hfi⟩
        refine ⟨m, j :: tr, ?_⟩
        simp only [linearScanGo]
        rw [if_pos hj, hm]
    · exact ⟨j - 1, [j], by simp [linearScanGo, hj]⟩

/-- C5 amended: `find_integer(f)` terminates and returns an integer whenever
`f` is false somewhere on its probe schedule — at one of the linear probes
`1..4` or at some `5 * 2 ^ k` (in particular for every effectively monotonic
predicate with a finite boundary).  On a predicate true on the whole probe
schedule, such as the constantly-true one, the source does not terminate. -/
theorem find_integer_terminates_of_probe_false (f : Nat → Bool) (k : Nat)
    (hk : (∃ i, 1 ≤ i ∧ i ≤ 4 ∧ f i = false) ∨ f (5 * 2 ^ k) = false) :
    ∃ n tr, find_integer f (k + 1) = some (n, tr) := by
  rcases hl : linearScan f with ⟨o, ltr⟩
  cases o with
  | some m => exact ⟨m, ltr, find_integer_eq_some f (k + 1) m ltr hl⟩
  | none =>
    rcases hk with ⟨i, h1, h4, hfi⟩ | hk
    · exfalso
      obtain ⟨m, tr, hm⟩ := linearScanGo_some_of_false f [1, 2, 3, 4]
        ⟨i, by simp; omega, hfi⟩
      have hl2 : linearScanGo f [1, 2, 3, 4] = (none, ltr) := hl
      rw [hm] at hl2
      simp at hl2
    · obtain ⟨⟨lo2, hi2, tr2⟩, hr⟩ := expProbe_some_of_false f k 4 5 hk
      exact ⟨(bsearch f lo2 hi2).1, ltr ++ tr2 ++ (bsearch f lo2 hi2).2,
        find_integer_eq_exp f (k + 1) ltr lo2 hi2 tr2 hl hr⟩

/-- C5 witness: the predicate `f(i) = (i ≠ 2)` is true at every `5 * 2 ^ k`
but false at the linear probe `2`, and `find_integer` indeed returns on
it. -/
theorem find_integer_terminates_of_probe_false_app :
    ∃ n tr, find_integer (fun i => decide (i ≠ 2)) 1 = some (n, tr) :=
  find_integer_terminates_of_probe_false (fun i => decide (i ≠ 2)) 0
    (Or.inl ⟨2, by decide, by decide, rfl⟩)

/-- Mutable state of one `Shrinker` session: `self.current`, `self.changes`
and the seen-set `self.__seen` (a Python `set`, embedded as the list of
values inserted so far). -/
structure ShrinkerState (α : Type) where
  current : α
  changes : Nat
  seen : List α
deriving DecidableEq

/-- The `Shrinker` class of `shrinking/common.py`: its configuration — the
acceptance predicate passed to `__init__`, the overridable canonicalizer
`make_immutable` (identity in the base class), the subclass hooks
`left_is_better`, `short_circuit`, `preamble`, `run_step`, and the `full`
flag.  `check_invariants` is `pass` in the shown source, so it has no
observable effect beyond being invoked; its invocations are recorded in the
call traces below.  The hooks `short_circuit`, `preamble` and `run_step` are
subclass-defined passes over the session state. -/
structure Shrinker (α : Type) where
  predicate : α → Bool
  make_immutable : α → α
  left_is_better : α → α → Bool
  short_circuit : ShrinkerState α → Bool
  preamble : ShrinkerState α → ShrinkerState α
  run_step : ShrinkerState α → ShrinkerState α
  full : Bool

/-- One recorded call to a black-box hook during `incorporate`/`consider`:
the invariant check, the comparison `left_is_better`, or the acceptance
predicate, each with its arguments. -/
inductive CallEvent (α : Type) where
  | invCheck (v : α)
  | cmp (l r : α)
  | pred (v : α)
deriving DecidableEq

/-- Arguments of the acceptance-predicate calls in a trace, in order. -/
def predArgs {α : Type} : List (CallEvent α) → List α
  | [] => []
  | CallEvent.pred v :: rest => v :: predArgs rest
  | _ :: rest => predArgs rest

/-- `Shrinker.incorporate` from `shrinking/common.py`, instrumented with the
calls it makes: canonicalize, run `check_invariants`, reject unless
`left_is_better(value, current)`, reject if in the seen-set, else mark seen,
evaluate the predicate and on success commit `current` and bump `changes`.
Returns (accepted, new state, calls made). -/
def Shrinker.incorporate {α : Type} [DecidableEq α] (P : Shrinker α)
    (s : ShrinkerState α) (value : α) : Bool × ShrinkerState α × List (CallEvent α) :=
  let v := P.make_immutable value
  if P.left_is_better v s.current = false then
    (false, s, [CallEvent.invCheck v, CallEvent.cmp v s.current])
  else if v ∈ s.seen then
    (false, s, [CallEvent.invCheck v, CallEvent.cmp v s.current])
  else if P.predicate v then
    (true, ⟨v, s.changes + 1, v :: s.seen⟩,
      [CallEvent.invCheck v, CallEvent.cmp v s.current, CallEvent.pred v])
  else
    (false, ⟨s.current, s.changes, v :: s.seen⟩,
      [CallEvent.invCheck v, CallEvent.cmp v s.current, CallEvent.pred v])

/-- `Shrinker.consider`: canonicalize, accept a value equal to `current`
as-is (no further calls), otherwise defer to `incorporate`. -/
def Shrinker.consider {α : Type} [DecidableEq α] (P : Shrinker α)
    (s : ShrinkerState α) (value : α) : Bool × ShrinkerState α × List (CallEvent α) :=
  let v := P.make_immutable value
  if v = s.current then (true, s, [])
  else Shrinker.incorporate P s v

/-- One driver-level call of a `run_step`/`preamble` body: either
`self.consider(value)` or `self.incorporate(value)`. -/
inductive ShrinkOp (α : Type) where
  | consider (value : α)
  | incorporate (value : α)

/-- Apply one `consider`/`incorporate` call to the session state, returning
the new state and the calls made. -/
def applyOpT {α : Type} [DecidableEq α] (P : Shrinker α) (s : ShrinkerState α) :
    ShrinkOp α → ShrinkerState α × List (CallEvent α)
  | ShrinkOp.consider v => ((Shrinker.consider P s v).2.1, (Shrinker.consider P s v).2.2)
  | ShrinkOp.incorporate v => ((Shrinker.incorporate P s v).2.1, (Shrinker.incorporate P s v).2.2)

/-- Apply a sequence of `consider`/`incorporate` calls, accumulating the
calls made. -/
def applyOpsT {α : Type} [DecidableEq α] (P : Shrinker α) (s : ShrinkerState α) :
    List (ShrinkOp α) → ShrinkerState α × List (CallEvent α)
  | [] => (s, [])
  | op :: rest =>
    let r := applyOpT P s op
    let r2 := applyOpsT P r.1 rest
    (r2.1, r.2 ++ r2.2)

/-- State reached by a sequence of `consider`/`incorporate` calls. -/
def applyOps {α : Type} [DecidableEq α] (P : Shrinker α) (s : ShrinkerState α)
    (ops : List (ShrinkOp α)) : ShrinkerState α :=
  (applyOpsT P s ops).1

/-- A subclass hook respects the driver discipline when everything it does to
the session state factors through some sequence of `consider`/`incorporate`
calls. -/
def RespectsOps {α : Type} [DecidableEq α] (P : Shrinker α)
    (step : ShrinkerState α → ShrinkerState α) : Prop :=
  ∀ s, ∃ ops, step s = applyOps P s ops

/-- The `while self.changes != prev: prev = self.changes; self.run_step()`
loop of `Shrinker.run` in full mode, with fuel; returns the final state and
the number of `run_step` calls, or `none` if the loop does not exit within
`fuel` iterations. -/
def runLoop {α : Type} (step : ShrinkerState α → ShrinkerState α)
    (s : ShrinkerState α) (prev : Int) : Nat → Option (ShrinkerState α × Nat)
  | 0 => if (s.changes : Int) = prev then some (s, 0) else none
  | fuel + 1 =>
    if (s.changes : Int) = prev then some (s, 0)
    else (runLoop step (step s) (s.changes : Int) fuel).map (fun r => (r.1, r.2 + 1))

/-- `Shrinker.run`: short-circuit check, one `preamble`, then either a single
`run_step` or the full-mode fixpoint loop.  Returns the final state together
with the number of `preamble` and of `run_step` calls made; `none` means the
full-mode loop of the source has not exited within `fuel` iterations. -/
def Shrinker.run {α : Type} [DecidableEq α] (P : Shrinker α) (s : ShrinkerState α)
    (fuel : Nat) : Option (ShrinkerState α × Nat × Nat) :=
  if P.short_circuit s then some (s, 0, 0)
  else
    if P.full then
      (runLoop P.run_step (P.preamble s) (-1) fuel).map (fun r => (r.1, 1, r.2))
    else some (P.run_step (P.preamble s), 1, 1)

/-- `Shrinker.__init__`: `current` is the canonicalized seed, `changes` is 0
and the seen-set is empty. -/
def initState {α : Type} (P : Shrinker α) (initial : α) : ShrinkerState α :=
  ⟨P.make_immutable initial, 0, []⟩

/-- The classmethod `Shrinker.shrink`: build a session on the seed, `run` it,
and return `current`. -/
def Shrinker.shrink {α : Type} [DecidableEq α] (P : Shrinker α) (initial : α)
    (fuel : Nat) : Option α :=
  (Shrinker.run P (initState P initial) fuel).map (fun r => r.1.current)

/-- C2: `incorporate` canonicalizes, then accepts — committing the canonical
value as `current` and bumping `changes` — exactly when the canonical value
is strictly better than `current`, unseen, and satisfies the predicate; in
every other case it rejects and leaves `current` (and `changes`)
unchanged. -/
theorem incorporate_accepts_iff {α : Type} [DecidableEq α] (P : Shrinker α)
    (s : ShrinkerState α) (value : α) :
    ((Shrinker.incorporate P s value).1 = true ↔
      (P.left_is_better (P.make_immutable value) s.current = true ∧
        P.make_immutable value ∉ s.seen ∧ P.predicate (P.make_immutable value) = true)) ∧
    ((Shrinker.incorporate P s value).1 = true →
      (Shrinker.incorporate P s value).2.1.current = P.make_immutable value ∧
        (Shrinker.incorporate P s value).2.1.changes = s.changes + 1) ∧
    ((Shrinker.incorporate P s value).1 = false →
      (Shrinker.incorporate P s value).2.1.current = s.current ∧
        (Shrinker.incorporate P s value).2.1.changes = s.changes) := by
  unfold Shrinker.incorporate
  by_cases h1 : P.left_is_better (P.make_immutable value) s.current = false
  · simp [h1]
  · by_cases h2 : P.make_immutable value ∈ s.seen
    · simp [h1, h2]
    · by_cases h3 : P.predicate (P.make_immutable value)
      · simp [h1, h2, h3]
      · simp [h1, h2, h3]

/-- Concrete `Shrinker` instance used by the witnesses: shrink naturals
towards smaller even values; all hooks are inert. -/
def P0 : Shrinker Nat :=
  ⟨fun v => decide (v % 2 = 0), fun v => v, fun a b => decide (a < b),
    fun _ => false, fun s => s, fun s => s, false⟩

/-- Concrete session state used by the witnesses. -/
def s0 : ShrinkerState Nat := ⟨5, 0, []⟩

/-- C2 witness: from state with `current = 5`, incorporating `2` (smaller,
unseen, even) is accepted. -/
theorem incorporate_accepts_iff_app : (Shrinker.incorporate P0 s0 2).1 = true :=
  (incorporate_accepts_iff P0 s0 2).1.mpr (by decide)

lemma incorporate_congr {α : Type} [DecidableEq α] (P : Shrinker α) (s : ShrinkerState α)
    (a b : α) (h : P.make_immutable a = P.make_immutable b) :
    Shrinker.incorporate P s a = Shrinker.incorporate P s b := by
  unfold Shrinker.incorporate
  rw [h]

/-- C8: when the canonical form of `value` equals `current`, `consider`
returns acceptance with the state unchanged and makes no call to the
predicate, `check_invariants` or `left_is_better` (empty call trace); when it
differs, `consider` agrees with `incorporate` on result, state and calls
(using idempotence of the canonicalizer, as the source applies it twice on
that path). -/
theorem consider_shortcut_spec {α : Type} [DecidableEq α] (P : Shrinker α)
    (s : ShrinkerState α) (value : α)
    (hmi : ∀ x, P.make_immutable (P.make_immutable x) = P.make_immutable x) :
    (P.make_immutable value = s.current → Shrinker.consider P s value = (true, s, [])) ∧
    (P.make_immutable value ≠ s.current →
      Shrinker.consider P s value = Shrinker.incorporate P s value) := by
  constructor
  · intro h
    simp only [Shrinker.consider]
    rw [if_pos h]
  · intro h
    simp only [Shrinker.consider]
    rw [if_neg h]
    exact incorporate_congr P s (P.make_immutable value) value (hmi value)

/-- C8 witness: `7` does not canonicalize to the current value `5`, and
`consider` coincides with `incorporate` on it. -/
theorem consider_shortcut_spec_app :
    Shrinker.consider P0 s0 7 = Shrinker.incorporate P0 s0 7 :=
  (consider_shortcut_spec P0 s0 7 (fun _ => rfl)).2 (by decide)

lemma runLoop_exit {α : Type} (step : ShrinkerState α → ShrinkerState α) :
    ∀ fuel (s : ShrinkerState α) (prev : Int) (s' : ShrinkerState α) (k : Nat),
      runLoop step s prev fuel = some (s', k) →
      (k = 0 ∧ s' = s ∧ (s.changes : Int) = prev) ∨
        (1 ≤ k ∧ ∃ s0, s' = step s0 ∧ s'.changes = s0.changes) := by
  intro fuel
  induction fuel with
  | zero =>
    intro s prev s' k h
    simp only [runLoop] at h
    by_cases hc : (s.changes : Int) = prev
    · rw [if_pos hc] at h
      simp only [Option.some.injEq, Prod.mk.injEq] at h
      exact Or.inl ⟨h.2.symm, h.1.symm, hc⟩
    · rw [if_neg hc] at h
      simp at h
  | succ fuel ih =>
    intro s prev s' k h
    simp only [runLoop] at h
    by_cases hc : (s.changes : Int) = prev
    · rw [if_pos hc] at h
      simp only [Option.some.injEq, Prod.mk.injEq] at h
      exact Or.inl ⟨h.2.symm, h.1.symm, hc⟩
    · rw [if_neg hc] at h
      rcases hr : runLoop step (step s) (s.changes : Int) fuel with _ | ⟨s1, k1⟩
      · rw [hr] at h; simp at h
      · rw [hr] at h
        simp only [Option.map_some', Option.some.injEq, Prod.mk.injEq] at h
        obtain ⟨hs, hk⟩ := h
        rcases ih (step s) (s.changes : Int) s1 k1 hr with ⟨hk1, hs1, hch⟩ | ⟨hk1, s2, hs2, hch⟩
        · refine Or.inr ⟨by omega, s, ?_, ?_⟩
          · rw [← hs, hs1]
          · rw [← hs, hs1]
            exact_mod_cast hch
        · exact Or.inr ⟨by omega, s2, by rw [← hs]; exact hs2, by rw [← hs]; exact hch⟩

/-- C3: `run` stops immediately with the state untouched and zero
`preamble`/`run_step` calls when `short_circuit` holds; otherwise it calls
`preamble` exactly once, then with `full = false` exactly one `run_step`, and
with `full = true` at least one `run_step`, returning (when the loop exits)
only after a `run_step` invocation that left `changes` unchanged. -/
theorem run_control_flow {α : Type} [DecidableEq α] (P : Shrinker α)
    (s : ShrinkerState α) (fuel : Nat) :
    (P.short_circuit s = true → Shrinker.run P s fuel = some (s, 0, 0)) ∧
    (P.short_circuit s = false → P.full = false →
      Shrinker.run P s fuel = some (P.run_step (P.preamble s), 1, 1)) ∧
    (∀ s' p k, P.short_circuit s = false → P.full = true →
      Shrinker.run P s fuel = some (s', p, k) →
      p = 1 ∧ 1 ≤ k ∧ ∃ s0, s' = P.run_step s0 ∧ s'.changes = s0.changes) := by
  refine ⟨?_, ?_, ?_⟩
  · intro h
    simp [Shrinker.run, h]
  · intro h1 h2
    simp [Shrinker.run, h1, h2]
  · intro s' p k h1 h2 h
    simp only [Shrinker.run, h1, h2, Bool.false_eq_true, if_false, if_true] at h
    rcases hr : runLoop P.run_step (P.preamble s) (-1) fuel with _ | ⟨s1, k1⟩
    · rw [hr] at h; simp at h
    · rw [hr] at h
      simp only [Option.map_some', Option.some.injEq, Prod.mk.injEq] at h
      obtain ⟨hs, hp, hk⟩ := h
      rcases runLoop_exit P.run_step fuel (P.preamble s) (-1) s1 k1 hr with
        ⟨_, _, hch⟩ | ⟨hk1, s2, hs2, hch⟩
      · omega
      · exact ⟨hp.symm, by omega, s2, by rw [← hs]; exact hs2, by rw [← hs]; exact hch⟩

/-- C3 witness: on the inert instance `P0` (no short-circuit, `full = false`)
`run` performs exactly one `preamble` and one `run_step`. -/
theorem run_control_flow_app :
    Shrinker.run P0 s0 5 = some (P0.run_step (P0.preamble s0), 1, 1) :=
  (run_control_flow P0 s0 5).2.1 rfl rfl

lemma incorporate_changes_le {α : Type} [DecidableEq α] (P : Shrinker α)
    (s : ShrinkerState α) (v : α) :
    s.changes ≤ (Shrinker.incorporate P s v).2.1.changes := by
  simp only [Shrinker.incorporate]
  split_ifs
  · exact le_rfl
  · exact le_rfl
  · exact Nat.le_succ s.changes
  · exact le_rfl

lemma incorporate_current_or {α : Type} [DecidableEq α] (P : Shrinker α)
    (s : ShrinkerState α) (v : α) :
    (Shrinker.incorporate P s v).2.1.current = s.current ∨
      P.left_is_better (Shrinker.incorporate P s v).2.1.current s.current = true := by
  simp only [Shrinker.incorporate]
  split_ifs with h1 h2 h3
  · exact Or.inl rfl
  · exact Or.inl rfl
  · cases hb : P.left_is_better (P.make_immutable v) s.current with
    | false => exact absurd hb h1
    | true => exact Or.inr rfl
  · exact Or.inl rfl

lemma applyOpT_changes_le {α : Type} [DecidableEq α] (P : Shrinker α)
    (s : ShrinkerState α) (op : ShrinkOp α) :
    s.changes ≤ (applyOpT P s op).1.changes := by
  cases op with
  | consider v =>
    simp only [applyOpT, Shrinker.consider]
    by_cases h : P.make_immutable v = s.current
    · rw [if_pos h]
    · rw [if_neg h]
      exact incorporate_changes_le P s (P.make_immutable v)
  | incorporate v => exact incorporate_changes_le P s v

lemma applyOpT_current_or {α : Type} [DecidableEq α] (P : Shrinker α)
    (s : ShrinkerState α) (op : ShrinkOp α) :
    (applyOpT P s op).1.current = s.current ∨
      P.left_is_better (applyOpT P s op).1.current s.current = true := by
  cases op with
  | consider v =>
    simp only [applyOpT, Shrinker.consider]
    by_cases h : P.make_immutable v = s.current
    · rw [if_pos h]
      exact Or.inl rfl
    · rw [if_neg h]
      exact incorporate_current_or P s (P.make_immutable v)
  | incorporate v => exact incorporate_current_or P s v

lemma applyOps_changes_le {α : Type} [DecidableEq α] (P : Shrinker α) :
    ∀ (ops : List (ShrinkOp α)) (s : ShrinkerState α),
      s.changes ≤ (applyOps P s ops).changes := by
  intro ops
  induction ops with
  | nil => intro s; exact le_rfl
  | cons op rest ih =>
    intro s
    show s.changes ≤ (applyOps P (applyOpT P s op).1 rest).changes
    exact le_trans (applyOpT_changes_le P s op) (ih (applyOpT P s op).1)

lemma better_trans_or {α : Type} (P : Shrinker α)
    (htrans : ∀ a b c, P.left_is_better a b = true → P.left_is_better b c = true →
      P.left_is_better a c = true)
    {a b c : α} (h1 : a = b ∨ P.left_is_better a b = true)
    (h2 : b = c ∨ P.left_is_better b c = true) :
    a = c ∨ P.left_is_better a c = true := by
  rcases h1 with rfl | h1
  · exact h2
  · rcases h2 with rfl | h2
    · exact Or.inr h1
    · exact Or.inr (htrans _ _ _ h1 h2)

lemma applyOps_current_or {α : Type} [DecidableEq α] (P : Shrinker α)
    (htrans : ∀ a b c, P.left_is_better a b = true → P.left_is_better b c = true →
      P.left_is_better a c = true) :
    ∀ (ops : List (ShrinkOp α)) (s : ShrinkerState α),
      (applyOps P s ops).current = s.current ∨
        P.left_is_better (applyOps P s ops).current s.current = true := by
  intro ops
  induction ops with
  | nil => intro s; exact Or.inl rfl
  | cons op rest ih =>
    intro s
    show (applyOps P (applyOpT P s op).1 rest).current = s.current ∨ _
    exact better_trans_or P htrans (ih (applyOpT P s op).1) (applyOpT_current_or P s op)

lemma respects_current_or {α : Type} [DecidableEq α] (P : Shrinker α)
    (step : ShrinkerState α → ShrinkerState α) (hstep : RespectsOps P step)
    (htrans : ∀ a b c, P.left_is_better a b = true → P.left_is_better b c = true →
      P.left_is_better a c = true) (s : ShrinkerState α) :
    (step s).current = s.current ∨ P.left_is_better (step s).current s.current = true := by
  obtain ⟨ops, hops⟩ := hstep s
  rw [hops]
  exact applyOps_current_or P htrans ops s

lemma runLoop_current_or {α : Type} (P : Shrinker α)
    (step : ShrinkerState α → ShrinkerState α)
    (htrans : ∀ a b c, P.left_is_better a b = true → P.left_is_better b c = true →
      P.left_is_better a c = true)
    (hstep : ∀ t : ShrinkerState α, (step t).current = t.current ∨
      P.left_is_better (step t).current t.current = true) :
    ∀ fuel (s : ShrinkerState α) (prev : Int) (s' : ShrinkerState α) (k : Nat),
      runLoop step s prev fuel = some (s', k) →
      s'.current = s.current ∨ P.left_is_better s'.current s.current = true := by
  intro fuel
  induction fuel with
  | zero =>
    intro s prev s' k h
    simp only [runLoop] at h
    by_cases hc : (s.changes : Int) = prev
    · rw [if_pos hc] at h
      simp only [Option.some.injEq, Prod.mk.injEq] at h
      exact Or.inl (by rw [← h.1])
    · rw [if_neg hc] at h
      simp at h
  | succ fuel ih =>
    intro s prev s' k h
    simp only [runLoop] at h
    by_cases hc : (s.changes : Int) = prev
    · rw [if_pos hc] at h
      simp only [Option.some.injEq, Prod.mk.injEq] at h
      exact Or.inl (by rw [← h.1])
    · rw [if_neg hc] at h
      rcases hr : runLoop step (step s) (s.changes : Int) fuel with _ | ⟨s1, k1⟩
      · rw [hr] at h; simp at h
      · rw [hr] at h
        simp only [Option.map_some', Option.some.injEq, Prod.mk.injEq] at h
        have h1 := ih (step s) (s.changes : Int) s1 k1 hr
        rw [← h.1]
        exact better_trans_or P htrans h1 (hstep s)

lemma run_current_or {α : Type} [DecidableEq α] (P : Shrinker α)
    (htrans : ∀ a b c, P.left_is_better a b = true → P.left_is_better b c = true →
      P.left_is_better a c = true)
    (hp : RespectsOps P P.preamble) (hr : RespectsOps P P.run_step)
    (s : ShrinkerState α) (fuel : Nat) (s' : ShrinkerState α) (p k : Nat)
    (h : Shrinker.run P s fuel = some (s', p, k)) :
    s'.current = s.current ∨ P.left_is_better s'.current s.current = true := by
  unfold Shrinker.run at h
  by_cases hsc : P.short_circuit s
  · rw [if_pos hsc] at h
    simp only [Option.some.injEq, Prod.mk.injEq] at h
    exact Or.inl (by rw [← h.1])
  · rw [if_neg hsc] at h
    by_cases hf : P.full
    · rw [if_pos hf] at h
      rcases hl : runLoop P.run_step (P.preamble s) (-1) fuel with _ | ⟨s1, k1⟩
      · rw [hl] at h; simp at h
      · rw [hl] at h
        simp only [Option.map_some', Option.some.injEq, Prod.mk.injEq] at h
        have h1 := runLoop_current_or P P.run_step htrans
          (fun t => respects_current_or P P.run_step hr htrans t) fuel (P.preamble s) (-1)
          s1 k1 hl
        rw [← h.1]
        exact better_trans_or P htrans h1 (respects_current_or P P.preamble hp htrans s)
    · rw [if_neg hf] at h
      simp only [Option.some.injEq, Prod.mk.injEq] at h
      rw [← h.1]
      exact better_trans_or P htrans (respects_current_or P P.run_step hr htrans (P.preamble s))
        (respects_current_or P P.preamble hp htrans s)

/-- C4: across every `consider`/`incorporate` call `changes` never decreases
(single calls and whole sequences), `current` is only ever replaced by a
value strictly better than it under the (transitive) `left_is_better` order,
and consequently after `run()` from a fresh session the final `current`
equals the canonicalized seed or is strictly better than it. -/
theorem session_monotone_progress {α : Type} [DecidableEq α] (P : Shrinker α)
    (htrans : ∀ a b c, P.left_is_better a b = true → P.left_is_better b c = true →
      P.left_is_better a c = true) :
    (∀ (s : ShrinkerState α) (op : ShrinkOp α), s.changes ≤ (applyOpT P s op).1.changes) ∧
    (∀ (s : ShrinkerState α) (ops : List (ShrinkOp α)),
      s.changes ≤ (applyOps P s ops).changes) ∧
    (∀ (s : ShrinkerState α) (op : ShrinkOp α),
      (applyOpT P s op).1.current = s.current ∨
        P.left_is_better (applyOpT P s op).1.current s.current = true) ∧
    (∀ (initial : α) (fuel : Nat) (s' : ShrinkerState α) (p k : Nat),
      RespectsOps P P.preamble → RespectsOps P P.run_step →
      Shrinker.run P (initState P initial) fuel = some (s', p, k) →
      s'.current = P.make_immutable initial ∨
        P.left_is_better s'.current (P.make_immutable initial) = true) := by
  refine ⟨fun s op => applyOpT_changes_le P s op,
    fun s ops => applyOps_changes_le P ops s,
    fun s op => applyOpT_current_or P s op,
    fun initial fuel s' p k hp hr h => ?_⟩
  exact run_current_or P htrans hp hr (initState P initial) fuel s' p k h

/-- C4 witness: on the concrete instance `P0` (order `<` on naturals, which
is transitive) a single `incorporate` call never decreases `changes`. -/
theorem session_monotone_progress_app :
    s0.changes ≤ (applyOps P0 s0 [ShrinkOp.incorporate 3]).changes :=
  (session_monotone_progress P0 (fun a b c h1 h2 => by
    simp only [P0, decide_eq_true_eq] at h1 h2 ⊢
    omega)).2.1 s0 [ShrinkOp.incorporate 3]

lemma predArgs_append {α : Type} :
    ∀ l1 l2 : List (CallEvent α), predArgs (l1 ++ l2) = predArgs l1 ++ predArgs l2 := by
  intro l1
  induction l1 with
  | nil => intro l2; rfl
  | cons e rest ih =>
    intro l2
    cases e <;> simp [predArgs, ih]

lemma incorporate_trace {α : Type} [DecidableEq α] (P : Shrinker α)
    (s : ShrinkerState α) (v : α) :
    (predArgs (Shrinker.incorporate P s v).2.2 = [] ∧
      (Shrinker.incorporate P s v).2.1.seen = s.seen) ∨
    (∃ w, w ∉ s.seen ∧ predArgs (Shrinker.incorporate P s v).2.2 = [w] ∧
      (Shrinker.incorporate P s v).2.1.seen = w :: s.seen) := by
  simp only [Shrinker.incorporate]
  split_ifs with h1 h2 h3
  · exact Or.inl ⟨rfl, rfl⟩
  · exact Or.inl ⟨rfl, rfl⟩
  · exact Or.inr ⟨P.make_immutable v, h2, rfl, rfl⟩
  · exact Or.inr ⟨P.make_immutable v, h2, rfl, rfl⟩

lemma applyOpT_trace {α : Type} [DecidableEq α] (P : Shrinker α)
    (s : ShrinkerState α) (op : ShrinkOp α) :
    (predArgs (applyOpT P s op).2 = [] ∧ (applyOpT P s op).1.seen = s.seen) ∨
    (∃ w, w ∉ s.seen ∧ predArgs (applyOpT P s op).2 = [w] ∧
      (applyOpT P s op).1.seen = w :: s.seen) := by
  cases op with
  | consider v =>
    simp only [applyOpT, Shrinker.consider]
    by_cases h : P.make_immutable v = s.current
    · rw [if_pos h]
      exact Or.inl ⟨rfl, rfl⟩
    · rw [if_neg h]
      exact incorporate_trace P s (P.make_immutable v)
  | incorporate v => exact incorporate_trace P s v

lemma applyOpsT_pred {α : Type} [DecidableEq α] (P : Shrinker α) :
    ∀ (ops : List (ShrinkOp α)) (s : ShrinkerState α),
      (predArgs (applyOpsT P s ops).2).Nodup ∧
      (∀ w ∈ predArgs (applyOpsT P s ops).2, w ∉ s.seen) ∧
      (∀ w ∈ s.seen, w ∈ (applyOpsT P s ops).1.seen) ∧
      (∀ w ∈ predArgs (applyOpsT P s ops).2, w ∈ (applyOpsT P s ops).1.seen) := by
  intro ops
  induction ops with
  | nil =>
    intro s
    exact ⟨List.nodup_nil, by simp [applyOpsT, predArgs], fun w hw => hw,
      by simp [applyOpsT, predArgs]⟩
  | cons op rest ih =>
    intro s
    have hshape : applyOpsT P s (op :: rest) =
        ((applyOpsT P (applyOpT P s op).1 rest).1,
          (applyOpT P s op).2 ++ (applyOpsT P (applyOpT P s op).1 rest).2) := rfl
    rw [hshape]
    simp only [predArgs_append]
    obtain ⟨ihnd, ihfresh, ihmono, ihmem⟩ := ih (applyOpT P s op).1
    rcases applyOpT_trace P s op with ⟨hev, hseen⟩ | ⟨w, hwfresh, hev, hseen⟩
    · rw [hev]
      simp only [List.nil_append]
      refine ⟨ihnd, ?_, ?_, ihmem⟩
      · intro x hx
        rw [← hseen]
        exact ihfresh x hx
      · intro x hx
        exact ihmono x (by rw [hseen]; exact hx)
    · rw [hev]
      have hsub : ∀ x, x ∈ s.seen → x ∈ (applyOpT P s op).1.seen := by
        intro x hx
        rw [hseen]
        exact List.mem_cons_of_mem w hx
      refine ⟨?_, ?_, ?_, ?_⟩
      · refine List.nodup_cons.mpr ⟨?_, ihnd⟩
        intro hmem
        have := ihfresh w hmem
        rw [hseen] at this
        exact this (List.mem_cons_self w s.seen)
      · intro x hx
        rcases List.mem_cons.mp hx with rfl | hx
        · exact hwfresh
        · intro hxs
          exact ihfresh x hx (hsub x hxs)
      · intro x hx
        exact ihmono x (hsub x hx)
      · intro x hx
        rcases List.mem_cons.mp hx with rfl | hx
        · exact ihmono x (by rw [hseen]; exact List.mem_cons_self x s.seen)
        · exact ihmem x hx

/-- C7: within one session started from a fresh state, across any
interleaving of `consider` and `incorporate` calls the acceptance predicate
is evaluated at most once per distinct canonicalized value: the recorded
predicate-argument sequence has no duplicates. -/
theorem predicate_once_per_value {α : Type} [DecidableEq α] (P : Shrinker α) (a : α)
    (ops : List (ShrinkOp α)) :
    (predArgs (applyOpsT P (initState P a) ops).2).Nodup :=
  (applyOpsT_pred P ops (initState P a)).1

/-- C7 witness: incorporating the same value twice evaluates the predicate
only once. -/
theorem predicate_once_per_value_app :
    (predArgs (applyOpsT P0 (initState P0 5)
      [ShrinkOp.incorporate 2, ShrinkOp.incorporate 2]).2).Nodup :=
  predicate_once_per_value P0 5 [ShrinkOp.incorporate 2, ShrinkOp.incorporate 2]

lemma incorporate_frozen {α : Type} [DecidableEq α] (P : Shrinker α) (c : α)
    (h : ∀ w, P.predicate w = true → P.left_is_better w c = false)
    (s : ShrinkerState α) (v : α) (hs : s.current = c) :
    (Shrinker.incorporate P s v).2.1.current = c ∧
      (Shrinker.incorporate P s v).2.1.changes = s.changes := by
  simp only [Shrinker.incorporate]
  split_ifs with h1 h2 h3
  · exact ⟨hs, rfl⟩
  · exact ⟨hs, rfl⟩
  · exfalso
    have := h (P.make_immutable v) h3
    rw [hs] at h1
    exact h1 this
  · exact ⟨hs, rfl⟩

lemma applyOpT_frozen {α : Type} [DecidableEq α] (P : Shrinker α) (c : α)
    (h : ∀ w, P.predicate w = true → P.left_is_better w c = false)
    (s : ShrinkerState α) (op : ShrinkOp α) (hs : s.current = c) :
    (applyOpT P s op).1.current = c ∧ (applyOpT P s op).1.changes = s.changes := by
  cases op with
  | consider v =>
    simp only [applyOpT, Shrinker.consider]
    by_cases hv : P.make_immutable v = s.current
    · rw [if_pos hv]
      exact ⟨hs, rfl⟩
    · rw [if_neg hv]
      exact incorporate_frozen P c h s (P.make_immutable v) hs
  | incorporate v => exact incorporate_frozen P c h s v hs

lemma applyOps_frozen {α : Type} [DecidableEq α] (P : Shrinker α) (c : α)
    (h : ∀ w, P.predicate w = true → P.left_is_better w c = false) :
    ∀ (ops : List (ShrinkOp α)) (s : ShrinkerState α), s.current = c →
      (applyOps P s ops).current = c ∧ (applyOps P s ops).changes = s.changes := by
  intro ops
  induction ops with
  | nil => intro s hs; exact ⟨hs, rfl⟩
  | cons op rest ih =>
    intro s hs
    obtain ⟨h1, h2⟩ := applyOpT_frozen P c h s op hs
    have h3 : applyOps P s (op :: rest) = applyOps P (applyOpT P s op).1 rest := rfl
    rw [h3]
    obtain ⟨h4, h5⟩ := ih (applyOpT P s op).1 h1
    exact ⟨h4, by rw [h5, h2]⟩

lemma respects_frozen {α : Type} [DecidableEq α] (P : Shrinker α) (c : α)
    (step : ShrinkerState α → ShrinkerState α) (hstep : RespectsOps P step)
    (h : ∀ w, P.predicate w = true → P.left_is_better w c = false)
    (s : ShrinkerState α) (hs : s.current = c) :
    (step s).current = c ∧ (step s).changes = s.changes := by
  obtain ⟨ops, hops⟩ := hstep s
  rw [hops]
  exact applyOps_frozen P c h ops s hs

lemma runLoop_frozen {α : Type} (_P : Shrinker α) (c : α)
    (step : ShrinkerState α → ShrinkerState α)
    (hstep : ∀ t : ShrinkerState α, t.current = c →
      (step t).current = c ∧ (step t).changes = t.changes) :
    ∀ fuel (s : ShrinkerState α) (prev : Int) (s' : ShrinkerState α) (k : Nat),
      runLoop step s prev fuel = some (s', k) → s.current = c →
      s'.current = c ∧ s'.changes = s.changes := by
  intro fuel
  induction fuel with
  | zero =>
    intro s prev s' k h hs
    simp only [runLoop] at h
    by_cases hc : (s.changes : Int) = prev
    · rw [if_pos hc] at h
      simp only [Option.some.injEq, Prod.mk.injEq] at h
      rw [← h.1]
      exact ⟨hs, rfl⟩
    · rw [if_neg hc] at h
      simp at h
  | succ fuel ih =>
    intro s prev s' k h hs
    simp only [runLoop] at h
    by_cases hc : (s.changes : Int) = prev
    · rw [if_pos hc] at h
      simp only [Option.some.injEq, Prod.mk.injEq] at h
      rw [← h.1]
      exact ⟨hs, rfl⟩
    · rw [if_neg hc] at h
      rcases hr : runLoop step (step s) (s.changes : Int) fuel with _ | ⟨s1, k1⟩
      · rw [hr] at h; simp at h
      · rw [hr] at h
        simp only [Option.map_some', Option.some.injEq, Prod.mk.injEq] at h
        obtain ⟨hst, hch⟩ := hstep s hs
        obtain ⟨h1, h2⟩ := ih (step s) (s.changes : Int) s1 k1 hr hst
        rw [← h.1]
        exact ⟨h1, by rw [h2, hch]⟩

lemma run_frozen {α : Type} [DecidableEq α] (P : Shrinker α) (c : α)
    (h : ∀ w, P.predicate w = true → P.left_is_better w c = false)
    (hp : RespectsOps P P.preamble) (hr : RespectsOps P P.run_step)
    (s : ShrinkerState α) (fuel : Nat) (s' : ShrinkerState α) (p k : Nat)
    (hrun : Shrinker.run P s fuel = some (s', p, k)) (hs : s.current = c) :
    s'.current = c ∧ s'.changes = s.changes := by
  unfold Shrinker.run at hrun
  by_cases hsc : P.short_circuit s
  · rw [if_pos hsc] at hrun
    simp only [Option.some.injEq, Prod.mk.injEq] at hrun
    rw [← hrun.1]
    exact ⟨hs, rfl⟩
  · rw [if_neg hsc] at hrun
    by_cases hf : P.full
    · rw [if_pos hf] at hrun
      rcases hl : runLoop P.run_step (P.preamble s) (-1) fuel with _ | ⟨s1, k1⟩
      · rw [hl] at hrun; simp at hrun
      · rw [hl] at hrun
        simp only [Option.map_some', Option.some.injEq, Prod.mk.injEq] at hrun
        obtain ⟨hpc, hpch⟩ := respects_frozen P c P.preamble hp h s hs
        obtain ⟨h1, h2⟩ := runLoop_frozen P c P.run_step
          (fun t ht => respects_frozen P c P.run_step hr h t ht) fuel (P.preamble s) (-1)
          s1 k1 hl hpc
        rw [← hrun.1]
        exact ⟨h1, by rw [h2, hpch]⟩
    · rw [if_neg hf] at hrun
      simp only [Option.some.injEq, Prod.mk.injEq] at hrun
      obtain ⟨hpc, hpch⟩ := respects_frozen P c P.preamble hp h s hs
      obtain ⟨h1, h2⟩ := respects_frozen P c P.run_step hr h (P.preamble s) hpc
      rw [← hrun.1]
      exact ⟨h1, by rw [h2, hpch]⟩

/-- C10: when the acceptance predicate rejects every value and the subclass
hooks mutate state only through `consider`/`incorporate`, any sequence of
such calls from a fresh session leaves `current` at the canonicalized seed
with `changes` still `0`, and `Shrinker.shrink` returns the canonicalized
seed unchanged. -/
theorem shrink_noop_when_rejected {α : Type} [DecidableEq α] (P : Shrinker α)
    (hpred : ∀ v, P.predicate v = false)
    (hp : RespectsOps P P.preamble) (hr : RespectsOps P P.run_step) :
    (∀ (initial : α) (ops : List (ShrinkOp α)),
      (applyOps P (initState P initial) ops).current = P.make_immutable initial ∧
        (applyOps P (initState P initial) ops).changes = 0) ∧
    (∀ (initial : α) (fuel : Nat) (c : α),
      Shrinker.shrink P initial fuel = some c → c = P.make_immutable initial) := by
  have hfrz : ∀ (c0 : α) (w : α), P.predicate w = true → P.left_is_better w c0 = false := by
    intro c0 w hw
    rw [hpred w] at hw
    exact absurd hw (by simp)
  constructor
  · intro initial ops
    exact applyOps_frozen P (P.make_immutable initial) (hfrz _) ops (initState P initial) rfl
  · intro initial fuel c hc
    unfold Shrinker.shrink at hc
    rcases hrun : Shrinker.run P (initState P initial) fuel with _ | ⟨s', p, k⟩
    · rw [hrun] at hc; simp at hc
    · rw [hrun] at hc
      simp only [Option.map_some', Option.some.injEq] at hc
      obtain ⟨h1, _⟩ := run_frozen P (P.make_immutable initial) (hfrz _) hp hr
        (initState P initial) fuel s' p k hrun rfl
      rw [← hc, h1]

/-- Witness instance: `P0` with the always-false acceptance predicate. -/
def P1 : Shrinker Nat :=
  ⟨fun _ => false, fun v => v, fun a b => decide (a < b),
    fun _ => false, fun s => s, fun s => s, false⟩

/-- C10 witness: with the always-false predicate, incorporating a strictly
smaller value leaves `current` at the seed with `changes` zero. -/
theorem shrink_noop_when_rejected_app :
    (applyOps P1 (initState P1 5) [ShrinkOp.incorporate 2]).current = P1.make_immutable 5 ∧
      (applyOps P1 (initState P1 5) [ShrinkOp.incorporate 2]).changes = 0 :=
  (shrink_noop_when_rejected P1 (fun _ => rfl) (fun _ => ⟨[], rfl⟩)
    (fun _ => ⟨[], rfl⟩)).1 5 [ShrinkOp.incorporate 2]

/-- Terminal classification of one execution record (spec §3): VALID,
INVALID, INTERESTING or OVERRUN. -/
inductive Status where
  | valid
  | invalid
  | interesting
  | overrun
deriving DecidableEq

/-- The predicate of `test_lot_of_dead_nodes`, replayed over a byte buffer:
`for i in range(5): if data.draw_bytes(1)[0] != i: data.mark_invalid()` then
`data.mark_interesting()`.  `rem` counts remaining loop iterations, `i` is
the loop index.  Returns the terminal status and the number of bytes drawn;
an exhausted buffer is an OVERRUN. -/
def deadNodesExecAux : Nat → Nat → List Nat → Status × Nat
  | 0, _, _ => (Status.interesting, 0)
  | _ + 1, _, [] => (Status.overrun, 0)
  | rem + 1, i, b :: rest =>
    if b ≠ i then (Status.invalid, 1)
    else
      let r := deadNodesExecAux rem (i + 1) rest
      (r.1, r.2 + 1)

/-- Execution of the dead-nodes predicate on a buffer, from the start. -/
def deadNodesExec (buf : List Nat) : Status × Nat := deadNodesExecAux 5 0 buf

/-- Terminal status of the dead-nodes predicate on a buffer. -/
def deadNodesStatus (buf : List Nat) : Status := (deadNodesExec buf).1

/-- A completed generation-phase execution record of the dead-nodes
predicate: the buffer is exactly the bytes drawn (all consumed, no overrun)
and every entry is a byte. -/
def IsRecord (buf : List Nat) : Prop :=
  (deadNodesExec buf).2 = buf.length ∧ (deadNodesExec buf).1 ≠ Status.overrun ∧
    ∀ x ∈ buf, x < 256

instance (buf : List Nat) : Decidable (IsRecord buf) := by
  unfold IsRecord
  infer_instance

lemma deadNodesAux_step_eq (rem i : Nat) (rest : List Nat) :
    deadNodesExecAux (rem + 1) i (i :: rest) =
      ((deadNodesExecAux rem (i + 1) rest).1, (deadNodesExecAux rem (i + 1) rest).2 + 1) := by
  simp [deadNodesExecAux]

lemma deadNodesAux_step_ne (rem i b : Nat) (rest : List Nat) (h : b ≠ i) :
    deadNodesExecAux (rem + 1) i (b :: rest) = (Status.invalid, 1) := by
  simp [deadNodesExecAux, h]

lemma deadNodesAux_status : ∀ rem i buf, (deadNodesExecAux rem i buf).1 = Status.invalid ∨
    (deadNodesExecAux rem i buf).1 = Status.interesting ∨
    (deadNodesExecAux rem i buf).1 = Status.overrun := by
  intro rem
  induction rem with
  | zero => intro i buf; right; left; rfl
  | succ rem ih =>
    intro i buf
    cases buf with
    | nil => right; right; rfl
    | cons b rest =>
      by_cases hb : b = i
      · subst hb
        rw [deadNodesAux_step_eq]
        exact ih (b + 1) rest
      · rw [deadNodesAux_step_ne rem i b rest hb]
        left; rfl

lemma deadNodesAux_interesting : ∀ rem i buf,
    ((deadNodesExecAux rem i buf).1 = Status.interesting ∧
      (deadNodesExecAux rem i buf).2 = buf.length) ↔ buf = rangeFrom i rem := by
  intro rem
  induction rem with
  | zero =>
    intro i buf
    constructor
    · rintro ⟨_, h2⟩
      cases buf with
      | nil => rfl
      | cons b rest => simp [deadNodesExecAux] at h2
    · rintro rfl
      exact ⟨rfl, rfl⟩
  | succ rem ih =>
    intro i buf
    cases buf with
    | nil =>
      constructor
      · rintro ⟨h1, _⟩
        simp [deadNodesExecAux] at h1
      · intro h
        simp [rangeFrom] at h
    | cons b rest =>
      by_cases hb : b = i
      · subst hb
        rw [deadNodesAux_step_eq]
        constructor
        · rintro ⟨h1, h2⟩
          simp only [List.length_cons] at h2
          have := (ih (b + 1) rest).mp ⟨h1, by omega⟩
          rw [rangeFrom, ← this]
        · intro h
          rw [rangeFrom] at h
          simp only [List.cons.injEq] at h
          have := (ih (b + 1) rest).mpr h.2
          refine ⟨this.1, ?_⟩
          simp only [List.length_cons]
          omega
      · rw [deadNodesAux_step_ne rem i b rest hb]
        constructor
        · rintro ⟨h1, _⟩
          simp at h1
        · intro h
          rw [rangeFrom] at h
          simp only [List.cons.injEq] at h
          exact absurd h.1 hb

lemma deadNodesAux_invalid : ∀ rem i buf,
    ((deadNodesExecAux rem i buf).1 = Status.invalid ∧
      (deadNodesExecAux rem i buf).2 = buf.length) ↔
    ∃ t b, t + 1 ≤ rem ∧ b ≠ i + t ∧ buf = rangeFrom i t ++ [b] := by
  intro rem
  induction rem with
  | zero =>
    intro i buf
    constructor
    · rintro ⟨h1, _⟩
      simp [deadNodesExecAux] at h1
    · rintro ⟨t, b, ht, _, _⟩
      omega
  | succ rem ih =>
    intro i buf
    cases buf with
    | nil =>
      constructor
      · rintro ⟨h1, _⟩
        simp [deadNodesExecAux] at h1
      · rintro ⟨t, b, _, _, hbuf⟩
        cases t with
        | zero => simp [rangeFrom] at hbuf
        | succ t => simp [rangeFrom] at hbuf
    | cons c rest =>
      by_cases hc : c = i
      · subst hc
        rw [deadNodesAux_step_eq]
        constructor
        · rintro ⟨h1, h2⟩
          simp only [List.length_cons] at h2
          obtain ⟨t, b, ht, hbne, hrest⟩ := (ih (c + 1) rest).mp ⟨h1, by omega⟩
          refine ⟨t + 1, b, by omega, by omega, ?_⟩
          rw [rangeFrom, hrest]
          rfl
        · rintro ⟨t, b, ht, hbne, hbuf⟩
          cases t with
          | zero =>
            simp only [rangeFrom, List.nil_append, List.cons.injEq] at hbuf
            omega
          | succ t =>
            rw [rangeFrom] at hbuf
            simp only [List.cons_append, List.cons.injEq] at hbuf
            obtain ⟨h1, h2⟩ := (ih (c + 1) rest).mpr ⟨t, b, by omega, by omega, hbuf.2⟩
            refine ⟨h1, ?_⟩
            simp only [List.length_cons]
            omega
      · rw [deadNodesAux_step_ne rem i c rest hc]
        constructor
        · rintro ⟨_, h2⟩
          simp only [List.length_cons] at h2
          have hrest : rest = [] := by
            cases rest with
            | nil => rfl
            | cons x xs => simp at h2
          subst hrest
          exact ⟨0, c, by omega, by omega, rfl⟩
        · rintro ⟨t, b, ht, hbne, hbuf⟩
          cases t with
          | zero =>
            simp only [rangeFrom, List.nil_append, List.cons.injEq] at hbuf
            obtain ⟨rfl, rfl⟩ := hbuf
            exact ⟨rfl, rfl⟩
          | succ t =>
            rw [rangeFrom] at hbuf
            simp only [List.cons_append, List.cons.injEq] at hbuf
            exact absurd hbuf.1 hc

lemma deadNodesAux_interesting_take : ∀ rem i buf,
    (deadNodesExecAux rem i buf).1 = Status.interesting →
    ∃ rest, buf = rangeFrom i rem ++ rest := by
  intro rem
  induction rem with
  | zero => intro i buf _; exact ⟨buf, rfl⟩
  | succ rem ih =>
    intro i buf h
    cases buf with
    | nil => simp [deadNodesExecAux] at h
    | cons c rest =>
      by_cases hc : c = i
      · subst hc
        rw [deadNodesAux_step_eq] at h
        obtain ⟨r, hr⟩ := ih (c + 1) rest h
        refine ⟨r, ?_⟩
        rw [rangeFrom, hr]
        rfl
      · rw [deadNodesAux_step_ne rem i c rest hc] at h
        simp at h

/-- Strict lexicographic comparison of byte buffers. -/
def lexLt : List Nat → List Nat → Bool
  | [], [] => false
  | [], _ :: _ => true
  | _ :: _, [] => false
  | a :: as, b :: bs => if a < b then true else if b < a then false else lexLt as bs

/-- Shortlex, the buffer improvement order of the spec (§3): shorter is
better; at equal length lexicographically smaller is better. -/
def shortlex (a b : List Nat) : Bool :=
  if a.length < b.length then true
  else if a.length = b.length then lexLt a b
  else false

lemma lexLt_irrefl : ∀ l : List Nat, lexLt l l = false := by
  intro l
  induction l with
  | nil => rfl
  | cons a as ih => simp [lexLt, ih]

lemma shortlex_irrefl (l : List Nat) : shortlex l l = false := by
  simp [shortlex, lexLt_irrefl]

lemma shortlex_of_interesting (v : List Nat)
    (h : deadNodesStatus v = Status.interesting) :
    shortlex v [0, 1, 2, 3, 4] = false := by
  obtain ⟨rest, hrest⟩ := deadNodesAux_interesting_take 5 0 v h
  subst hrest
  cases rest with
  | nil => exact shortlex_irrefl [0, 1, 2, 3, 4]
  | cons r rs =>
    have hlen : (rangeFrom 0 5 ++ r :: rs).length = 6 + rs.length := by
      simp [rangeFrom]
      omega
    have hlen5 : ([0, 1, 2, 3, 4] : List Nat).length = 5 := rfl
    unfold shortlex
    rw [if_neg (by rw [hlen, hlen5]; omega), if_neg (by rw [hlen, hlen5]; omega)]

lemma record_cases (buf : List Nat) (h : IsRecord buf) :
    (deadNodesStatus buf = Status.interesting ∧ buf = [0, 1, 2, 3, 4]) ∨
    (deadNodesStatus buf = Status.invalid ∧
      ∃ t b, t < 5 ∧ b ≠ t ∧ b < 256 ∧ buf = rangeFrom 0 t ++ [b]) := by
  obtain ⟨hcons, hov, hbytes⟩ := h
  rcases deadNodesAux_status 5 0 buf with hs | hs | hs
  · right
    refine ⟨hs, ?_⟩
    obtain ⟨t, b, ht, hbne, hbuf⟩ := (deadNodesAux_invalid 5 0 buf).mp ⟨hs, hcons⟩
    refine ⟨t, b, by omega, by omega, ?_, hbuf⟩
    exact hbytes b (by rw [hbuf]; simp)
  · left
    refine ⟨hs, ?_⟩
    have hb := (deadNodesAux_interesting 5 0 buf).mp ⟨hs, hcons⟩
    rw [show rangeFrom 0 5 = [0, 1, 2, 3, 4] from rfl] at hb
    exact hb
  · exact absurd hs hov

/-- Code of an invalid record consisting of `t` correct draws followed by
the wrong byte `b`; injective into `[0, 1275)` over the 1275 invalid
records. -/
def codeOf (t b : Nat) : Nat := t * 255 + (if b < t then b else b - 1)

lemma codeOf_lt (t b : Nat) (h1 : t < 5) (_h2 : b ≠ t) (h3 : b < 256) :
    codeOf t b < 1275 := by
  unfold codeOf
  split_ifs <;> omega

lemma codeOf_inj (t1 b1 t2 b2 : Nat) (h1 : t1 < 5) (h2 : b1 ≠ t1) (h3 : b1 < 256)
    (h4 : t2 < 5) (h5 : b2 ≠ t2) (h6 : b2 < 256)
    (he : codeOf t1 b1 = codeOf t2 b2) : t1 = t2 ∧ b1 = b2 := by
  unfold codeOf at he
  split_ifs at he <;> omega

lemma discovery (recs : Nat → List Nat)
    (hrec : ∀ k, k < 1276 → IsRecord (recs k))
    (hnovel : ∀ j k, j < k → k < 1276 → recs j ≠ recs k) :
    ∃ k, k < 1276 ∧ deadNodesStatus (recs k) = Status.interesting ∧
      recs k = [0, 1, 2, 3, 4] := by
  by_cases hex : ∃ k, k < 1276 ∧ deadNodesStatus (recs k) = Status.interesting
  · obtain ⟨k, hk, hs⟩ := hex
    rcases record_cases (recs k) (hrec k hk) with ⟨_, hbuf⟩ | ⟨hinv, _⟩
    · exact ⟨k, hk, hs, hbuf⟩
    · simp [hs] at hinv
  · exfalso
    push_neg at hex
    have hstruct : ∀ k : Fin 1276, ∃ t b, t < 5 ∧ b ≠ t ∧ b < 256 ∧
        recs k = rangeFrom 0 t ++ [b] := by
      intro k
      rcases record_cases (recs k) (hrec k k.2) with ⟨hs, _⟩ | ⟨_, hst⟩
      · exact absurd hs (hex k k.2)
      · exact hst
    choose t b ht hb hblt hbuf using hstruct
    have hcode : ∀ k : Fin 1276, codeOf (t k) (b k) < 1275 :=
      fun k => codeOf_lt (t k) (b k) (ht k) (hb k) (hblt k)
    have hinj : Function.Injective
        (fun k : Fin 1276 => (⟨codeOf (t k) (b k), hcode k⟩ : Fin 1275)) := by
      intro k1 k2 he
      simp only [Fin.mk.injEq] at he
      obtain ⟨hteq, hbeq⟩ := codeOf_inj (t k1) (b k1) (t k2) (b k2) (ht k1) (hb k1)
        (hblt k1) (ht k2) (hb k2) (hblt k2) he
      have hre : recs k1 = recs k2 := by
        rw [hbuf k1, hbuf k2, hteq, hbeq]
      rcases lt_trichotomy (k1 : Nat) (k2 : Nat) with hlt | heq | hgt
      · exact absurd hre (hnovel k1 k2 hlt k2.2)
      · exact Fin.ext heq
      · exact absurd hre.symm (hnovel k2 k1 hgt k1.2)
    have hcard := Fintype.card_le_of_injective _ hinj
    rw [Fintype.card_fin, Fintype.card_fin] at hcard
    omega

/-- Modelled from the spec: the Conjecture Runner's generation-then-shrink
pipeline for the dead-nodes scenario (the engine source itself is not among
the shown files; §4.4–§4.5).  Generation executes a sequence of records
`recs 0, recs 1, …` — that each executed buffer is a completed record and
that no exact buffer is ever re-executed (result cache / novel prefixes) are
stated as hypotheses of the theorem below.  The first INTERESTING record
within the budget is handed to the Shrinker Core (`left_is_better` =
shortlex, predicate = "re-execute and still interesting"), and the shrunk
buffer is reported. -/
def runnerReport (SP : Shrinker (List Nat)) (recs : Nat → List Nat)
    (budget fuel : Nat) : Option (List Nat) :=
  match (List.range budget).find?
      (fun k => decide (deadNodesStatus (recs k) = Status.interesting)) with
  | none => none
  | some k => Shrinker.shrink SP (recs k) fuel

lemma run_some_of_not_full {α : Type} [DecidableEq α] (P : Shrinker α)
    (hfull : P.full = false) (s : ShrinkerState α) (fuel : Nat) :
    ∃ r, Shrinker.run P s fuel = some r := by
  unfold Shrinker.run
  by_cases hsc : P.short_circuit s
  · rw [if_pos hsc]
    exact ⟨(s, 0, 0), rfl⟩
  · rw [if_neg hsc, hfull]
    exact ⟨(P.run_step (P.preamble s), 1, 1), rfl⟩

/-- C9: for any generation sequence of pairwise-distinct completed records of
the dead-nodes predicate, an INTERESTING record — necessarily the buffer
`[0,1,2,3,4]` — is discovered within 1276 executions (the record space has
1275 invalid records plus the single interesting one), and whatever the
runner reports after handing it to a spec-conforming Shrinker Core is
exactly `[0,1,2,3,4]`. -/
theorem runner_reports_exact_buffer (recs : Nat → List Nat)
    (hrec : ∀ k, k < 1276 → IsRecord (recs k))
    (hnovel : ∀ j k, j < k → k < 1276 → recs j ≠ recs k)
    (SP : Shrinker (List Nat))
    (hpred : ∀ v, SP.predicate v = decide (deadNodesStatus v = Status.interesting))
    (hlib : ∀ a c, SP.left_is_better a c = shortlex a c)
    (hmi : ∀ v, SP.make_immutable v = v)
    (hp : RespectsOps SP SP.preamble) (hr : RespectsOps SP SP.run_step) :
    (∃ k, k < 1276 ∧ deadNodesStatus (recs k) = Status.interesting ∧
      recs k = [0, 1, 2, 3, 4]) ∧
    (∀ fuel br, runnerReport SP recs 1276 fuel = some br → br = [0, 1, 2, 3, 4]) ∧
    (SP.full = false → ∀ fuel, ∃ br, runnerReport SP recs 1276 fuel = some br) := by
  have hdisc := discovery recs hrec hnovel
  refine ⟨hdisc, ?_, ?_⟩
  case refine_2 =>
    intro hfull fuel
    unfold runnerReport
    rcases hfind : (List.range 1276).find?
        (fun k => decide (deadNodesStatus (recs k) = Status.interesting)) with _ | k0
    · exfalso
      obtain ⟨k, hk, hks, _⟩ := hdisc
      have := List.find?_eq_none.mp hfind k (List.mem_range.mpr hk)
      simp [hks] at this
    · obtain ⟨r, hr2⟩ := run_some_of_not_full SP hfull (initState SP (recs k0)) fuel
      refine ⟨r.1.current, ?_⟩
      show Shrinker.shrink SP (recs k0) fuel = some r.1.current
      unfold Shrinker.shrink
      rw [hr2]
      rfl
  intro fuel br hrep
  unfold runnerReport at hrep
  rcases hfind : (List.range 1276).find?
      (fun k => decide (deadNodesStatus (recs k) = Status.interesting)) with _ | k0
  · rw [hfind] at hrep
    simp at hrep
  · rw [hfind] at hrep
    have hk0status : deadNodesStatus (recs k0) = Status.interesting := by
      simpa using List.find?_some hfind
    have hk0lt : k0 < 1276 := List.mem_range.mp (List.mem_of_find?_eq_some hfind)
    have hbuf : recs k0 = [0, 1, 2, 3, 4] := by
      rcases record_cases (recs k0) (hrec k0 hk0lt) with ⟨_, hb⟩ | ⟨hinv, _⟩
      · exact hb
      · simp [hk0status] at hinv
    have hrep2 : Shrinker.shrink SP (recs k0) fuel = some br := hrep
    rw [hbuf] at hrep2
    have hfrz : ∀ w, SP.predicate w = true →
        SP.left_is_better w [0, 1, 2, 3, 4] = false := by
      intro w hw
      rw [hpred] at hw
      rw [hlib]
      exact shortlex_of_interesting w (by simpa using hw)
    unfold Shrinker.shrink at hrep2
    rcases hrun : Shrinker.run SP (initState SP [0, 1, 2, 3, 4]) fuel with _ | ⟨s', p, k⟩
    · rw [hrun] at hrep2
      simp at hrep2
    · rw [hrun] at hrep2
      simp only [Option.map_some', Option.some.injEq] at hrep2
      have hinit : (initState SP [0, 1, 2, 3, 4]).current = [0, 1, 2, 3, 4] := by
        simp [initState, hmi]
      obtain ⟨h1, _⟩ := run_frozen SP [0, 1, 2, 3, 4] hfrz hp hr _ fuel s' p k hrun hinit
      rw [← hrep2, h1]

lemma rangeFrom_length : ∀ t i, (rangeFrom i t).length = t := by
  intro t
  induction t with
  | zero => intro i; rfl
  | succ t ih =>
    intro i
    simp only [rangeFrom, List.length_cons, ih]

/-- The byte that deviates at position `j`: the inverse of the adjustment in
`codeOf`, used to enumerate the invalid records. -/
def adjInv (a j : Nat) : Nat := if a < j then a else a + 1

/-- A concrete generation sequence enumerating all 1275 invalid records of
the dead-nodes predicate and then the interesting one. -/
def recs0 (k : Nat) : List Nat :=
  if k < 1275 then rangeFrom 0 (k / 255) ++ [adjInv (k % 255) (k / 255)]
  else [0, 1, 2, 3, 4]

lemma recs0_isRecord : ∀ k, k < 1276 → IsRecord (recs0 k) := by
  intro k hk
  by_cases hk5 : k < 1275
  · rw [recs0, if_pos hk5]
    have ht : k / 255 < 5 := by omega
    have ha : k % 255 < 255 := by omega
    have hbne : adjInv (k % 255) (k / 255) ≠ 0 + k / 255 := by
      unfold adjInv
      split_ifs <;> omega
    have hinv := (deadNodesAux_invalid 5 0
        (rangeFrom 0 (k / 255) ++ [adjInv (k % 255) (k / 255)])).mpr
      ⟨k / 255, adjInv (k % 255) (k / 255), by omega, hbne, rfl⟩
    unfold IsRecord
    refine ⟨hinv.2, ?_, ?_⟩
    · rw [show (deadNodesExec (rangeFrom 0 (k / 255) ++ [adjInv (k % 255) (k / 255)])).1 =
        Status.invalid from hinv.1]
      simp
    · intro x hx
      rcases List.mem_append.mp hx with hx | hx
      · have := mem_rangeFrom _ _ _ hx
        omega
      · simp only [List.mem_singleton] at hx
        subst hx
        unfold adjInv
        split_ifs <;> omega
  · rw [recs0, if_neg hk5]
    decide

lemma recs0_inj : ∀ j k, j < k → k < 1276 → recs0 j ≠ recs0 k := by
  intro j k hjk hk he
  by_cases hj5 : j < 1275
  · by_cases hk5 : k < 1275
    · rw [recs0, if_pos hj5, recs0, if_pos hk5] at he
      have hlen := congrArg List.length he
      simp only [List.length_append, rangeFrom_length, List.length_singleton] at hlen
      have hdiv : j / 255 = k / 255 := by omega
      rw [hdiv] at he
      have hcancel := List.append_inj he rfl
      have hb : adjInv (j % 255) (k / 255) = adjInv (k % 255) (k / 255) := by
        have := hcancel.2
        simpa using this
      unfold adjInv at hb
      split_ifs at hb <;> omega
    · rw [recs0, if_pos hj5, recs0, if_neg hk5] at he
      have hlen := congrArg List.length he
      simp only [List.length_append, rangeFrom_length, List.length_singleton] at hlen
      have hdiv : j / 255 = 4 := by
        have : ([0, 1, 2, 3, 4] : List Nat).length = 5 := rfl
        omega
      rw [hdiv] at he
      have hb : adjInv (j % 255) 4 = 4 := by
        simpa [rangeFrom] using he
      unfold adjInv at hb
      split_ifs at hb <;> omega
  · omega

/-- The Shrinker Core instance the Runner uses in the dead-nodes scenario:
predicate = "re-execute, still interesting", order = shortlex, inert
hooks. -/
def SP0 : Shrinker (List Nat) :=
  ⟨fun v => decide (deadNodesStatus v = Status.interesting), fun v => v, shortlex,
    fun _ => false, fun s => s, fun s => s, false⟩

/-- C9 witness: on the concrete exhaustive generation sequence `recs0`, the
interesting buffer `[0,1,2,3,4]` is discovered within 1276 executions. -/
theorem runner_reports_exact_buffer_app :
    ∃ k, k < 1276 ∧ deadNodesStatus (recs0 k) = Status.interesting ∧
      recs0 k = [0, 1, 2, 3, 4] :=
  (runner_reports_exact_buffer recs0 recs0_isRecord recs0_inj SP0 (fun _ => rfl)
    (fun _ _ => rfl) (fun _ => rfl) (fun _ => ⟨[], rfl⟩) (fun _ => ⟨[], rfl⟩)).1
